import Mathlib

/-!
Verification of src/update_packages.py, a utility that rewrites the
package declaration line of Java source files.

The script applies, per file,
  re.sub(r'^package\s+org\.lareferencia\.(backend|core)\.[^;]+;',
         f'package {new_package};', content, count=1, flags=re.MULTILINE)
and rewrites the file only when the result differs from the original.

Embedding notes (faithfulness of the regex model):
- With re.MULTILINE, the anchor matches at position 0 and immediately after
  every newline character; re.sub scans positions left to right, so the
  leftmost anchored match is replaced.
- The whitespace piece of the pattern is greedy; the following literal starts
  with a non-whitespace character, so only the maximal whitespace run can
  yield a match and no backtracking is observable.
- The two alternatives backend / core differ in their first character, so at
  most one alternative can apply at a given position.
- The body piece excludes semicolons and is followed by a literal semicolon,
  so a match consumes exactly up to and including the first semicolon after
  the body start, and the body must be nonempty.
- The replacement template is taken literally: the real substitution would
  additionally interpret backslash escapes in the template, but the package
  names of this script contain none.
-/

namespace UpdatePackages

/-- Python regex class backslash-s over str: ASCII whitespace plus the
Unicode whitespace characters. -/
def isSpace (c : Char) : Bool :=
  c ∈ ([' ', '\t', '\n', '\r', '\x0b', '\x0c',
        '\x1c', '\x1d', '\x1e', '\x1f', '\x85', '\xa0',
        ' ', ' ', ' ', ' ', ' ', ' ', ' ',
        ' ', ' ', ' ', ' ', ' ', ' ', ' ',
        ' ', ' ', '　'] : List Char)

/-- Match a literal piece of the pattern: consume the given characters or fail. -/
def stripLit : List Char → List Char → Option (List Char)
  | [], s => some s
  | _ :: _, [] => none
  | l :: ls, c :: cs => if l = c then stripLit ls cs else none

/-- The pattern piece backslash-s-plus: at least one whitespace character,
consumed maximally (see the header note on greediness). -/
def stageSp : List Char → Option (List Char)
  | [] => none
  | c :: cs => if isSpace c then some (cs.dropWhile isSpace) else none

/-- The pattern piece (backend|core) followed by a literal dot. -/
def stageBr (s : List Char) : Option (List Char) :=
  match stripLit "backend.".data s with
  | some r => some r
  | none => stripLit "core.".data s

/-- The pattern piece of one or more non-semicolon characters followed by a
semicolon: consumes up to and including the first semicolon, requiring at
least one character before it. -/
def stageBody : List Char → Option (List Char)
  | [] => none
  | c :: cs =>
    if c = ';' then none
    else
      match cs.dropWhile (fun d => d ≠ ';') with
      | d :: r => if d = ';' then some r else none
      | [] => none

/-- Attempt the whole pattern at the current position; on success return the
remainder of the input after the match. -/
def matchPkgAt (s : List Char) : Option (List Char) :=
  (stripLit "package".data s).bind fun s1 =>
  (stageSp s1).bind fun s2 =>
  (stripLit "org.lareferencia.".data s2).bind fun s3 =>
  (stageBr s3).bind fun s4 =>
  stageBody s4

/-- One pass of re.sub with count 1 and MULTILINE: scan left to right, keeping
a flag that records whether the current position is at the start of a line
(position 0 or just after a newline); at line starts attempt the pattern and,
on the first success, emit the replacement followed by the unread remainder. -/
def subAux (repl : List Char) : List Char → Bool → List Char
  | [], _ => []
  | c :: cs, atStart =>
    if atStart then
      match matchPkgAt (c :: cs) with
      | some rem => repl ++ rem
      | none => c :: subAux repl cs (c = '\n')
    else c :: subAux repl cs (c = '\n')

/-- The replacement text: package, a space, the new package name, a semicolon. -/
def replacementOf (new_package : String) : List Char :=
  ("package " ++ new_package ++ ";").data

/-- The full substitution applied to a file content. -/
def re_sub_pkg (content new_package : String) : String :=
  String.mk (subAux (replacementOf new_package) content.data true)

/-- Pure core of update_package_declaration: the boolean it returns (whether
the content changed, hence whether the file is rewritten) together with the
content afterwards. -/
def update_package_content (content new_package : String) : Bool × String :=
  let new_content := re_sub_pkg content new_package
  if new_content ≠ content then (true, new_content) else (false, content)

/-- Mirror of findMatch inside subAux: the prefix scanned before the first
match together with the remainder after the match, when a match exists. -/
def findMatch : List Char → Bool → Option (List Char × List Char)
  | [], _ => none
  | c :: cs, atStart =>
    if atStart then
      match matchPkgAt (c :: cs) with
      | some rem => some ([], rem)
      | none => (findMatch cs (c = '\n')).map (fun p => (c :: p.1, p.2))
    else (findMatch cs (c = '\n')).map (fun p => (c :: p.1, p.2))

deriving instance DecidableEq for Except

/-- A node of the modelled filesystem: a regular file with its text content,
or a directory with the names of its immediate children. -/
inductive FsNode
  | file (content : String)
  | dir (entries : List String)
deriving DecidableEq

/-- The filesystem state: an association list from absolute paths to nodes,
earlier entries shadowing later ones. -/
structure FS where
  nodes : List (String × FsNode)
deriving DecidableEq

/-- Lookup of a path in the association list. -/
def findEntry : List (String × FsNode) → String → Option FsNode
  | [], _ => none
  | (q, n) :: rest, p => if p = q then some n else findEntry rest p

/-- The node at a path, if any. -/
def FS.find (fs : FS) (p : String) : Option FsNode :=
  findEntry fs.nodes p

/-- Model of os.path.exists. -/
def FS.pathExists (fs : FS) (p : String) : Bool :=
  (fs.find p).isSome

/-- Model of os.listdir: the immediate children of a directory; listing a
regular file or a missing path raises. -/
def FS.listdir (fs : FS) (p : String) : Except String (List String) :=
  match fs.find p with
  | some (.dir es) => .ok es
  | some (.file _) => .error "NotADirectoryError"
  | none => .error "FileNotFoundError"

/-- Model of open for reading followed by read. -/
def FS.read (fs : FS) (p : String) : Except String String :=
  match fs.find p with
  | some (.file c) => .ok c
  | some (.dir _) => .error "IsADirectoryError"
  | none => .error "FileNotFoundError"

/-- Model of open for writing followed by write: the new content shadows
whatever was at the path. -/
def FS.write (fs : FS) (p : String) (c : String) : FS :=
  ⟨(p, FsNode.file c) :: fs.nodes⟩

/-- Model of the endswith test used to filter file names. -/
def strEndsWith (s suffix : String) : Bool :=
  List.isSuffixOf suffix.data s.data

/-- Model of str.startswith, used for the absolute-path case of path joining. -/
def strStartsWith (s pre : String) : Bool :=
  List.isPrefixOf pre.data s.data

/-- Model of os.path.join on two components. -/
def joinPath (a b : String) : String :=
  if strStartsWith b "/" then b
  else if strEndsWith a "/" ∨ a = "" then a ++ b
  else a ++ "/" ++ b

/-- update_package_declaration from the script: read the file, apply the
substitution once, and rewrite the file exactly when the content changed,
returning whether it did. -/
def update_package_declaration (fs : FS) (file_path new_package : String) :
    Except String (Bool × FS) :=
  match fs.read file_path with
  | .error e => .error e
  | .ok content =>
    let new_content := re_sub_pkg content new_package
    if new_content ≠ content then .ok (true, fs.write file_path new_content)
    else .ok (false, fs)

/-- The loop body of process_directory: walk the directory listing in order,
updating each name that ends in .java and counting the files actually
modified. -/
def process_files (fs : FS) (dir : String) (entries : List String)
    (new_package : String) : Except String (Nat × FS) :=
  match entries with
  | [] => .ok (0, fs)
  | f :: rest =>
    if strEndsWith f ".java" then
      match update_package_declaration fs (joinPath dir f) new_package with
      | .error e => .error e
      | .ok (updated, fs1) =>
        match process_files fs1 dir rest new_package with
        | .error e => .error e
        | .ok (n, fs2) => .ok ((if updated then 1 else 0) + n, fs2)
    else process_files fs dir rest new_package

/-- process_directory from the script: join the base and relative paths,
return 0 if the joined path does not exist, otherwise list it and process
every .java child. -/
def process_directory (fs : FS) (base_path relative_path new_package : String) :
    Except String (Nat × FS) :=
  let full_path := joinPath base_path relative_path
  if fs.pathExists full_path = false then .ok (0, fs)
  else
    match fs.listdir full_path with
    | .error e => .error e
    | .ok entries => process_files fs full_path entries new_package

/-- PACKAGE_MAPPINGS from the script, in insertion order. -/
def PACKAGE_MAPPINGS : List (String × String) :=
  [("domain", "org.lareferencia.core.domain"),
   ("repository/jpa", "org.lareferencia.core.repository.jpa"),
   ("repository/parquet", "org.lareferencia.core.repository.parquet"),
   ("service/harvesting", "org.lareferencia.core.service.harvesting"),
   ("service/validation", "org.lareferencia.core.service.validation"),
   ("service/indexing", "org.lareferencia.core.service.indexing"),
   ("service/management", "org.lareferencia.core.service.management"),
   ("worker/harvesting", "org.lareferencia.core.worker.harvesting"),
   ("worker/validation", "org.lareferencia.core.worker.validation"),
   ("worker/validation/validator", "org.lareferencia.core.worker.validation.validator"),
   ("worker/validation/transformer", "org.lareferencia.core.worker.validation.transformer"),
   ("worker/indexing", "org.lareferencia.core.worker.indexing"),
   ("worker/management", "org.lareferencia.core.worker.management"),
   ("task", "org.lareferencia.core.task")]

/-- The hardcoded base path of main. -/
def base_path : String :=
  "/Users/lmatas/source/lareferencia-platform/lareferencia-core-lib/src/main/java/org/lareferencia/core"

/-- The loop of main: process each mapping entry in order, accumulating the
returned counts into the running total, exactly as the script does with its
mutable total_updated variable. -/
def mainLoop (fs : FS) (base : String) (total : Nat) :
    List (String × String) → Except String (Nat × FS)
  | [] => .ok (total, fs)
  | (rel, pkg) :: rest =>
    match process_directory fs base rel pkg with
    | .error e => .error e
    | .ok (c, fs1) => mainLoop fs1 base (total + c) rest

/-- main from the script: run the loop over PACKAGE_MAPPINGS from total 0,
returning the reported grand total and the final filesystem. -/
def main (fs : FS) : Except String (Nat × FS) :=
  mainLoop fs base_path 0 PACKAGE_MAPPINGS

/-- The per-entry counts that the successive process_directory calls return,
threading the filesystem state from one entry to the next. -/
def entryCounts (fs : FS) (base : String) :
    List (String × String) → Option (List Nat)
  | [] => some []
  | (rel, pkg) :: rest =>
    match process_directory fs base rel pkg with
    | .error _ => none
    | .ok (c, fs1) => (entryCounts fs1 base rest).map (fun cs => c :: cs)

/-- The immediate children of a directory node, empty for other nodes; used
to state frame properties of process_directory. -/
def dirEntries (fs : FS) (p : String) : List String :=
  match fs.find p with
  | some (.dir es) => es
  | _ => []

/-- The line-start flag that the scan of subAux carries after walking a
prefix w, having entered it with flag b. -/
def lastFlag (w : List Char) (b : Bool) : Bool :=
  match w.getLast? with
  | some c => decide (c = '\n')
  | none => b

theorem stripLit_self (lit r : List Char) : stripLit lit (lit ++ r) = some r := by
  induction lit with
  | nil => rfl
  | cons l ls ih => simp [stripLit, ih]

theorem stripLit_some {lit s r : List Char} (h : stripLit lit s = some r) :
    s = lit ++ r := by
  induction lit generalizing s with
  | nil =>
    simp only [stripLit, Option.some.injEq] at h
    simpa using h
  | cons l ls ih =>
    cases s with
    | nil => simp [stripLit] at h
    | cons c cs =>
      rw [stripLit] at h
      by_cases hc : l = c
      · simp only [hc, if_pos rfl] at h
        simpa [hc] using congrArg (c :: ·) (ih h)
      · simp [hc] at h

theorem stripLit_append_long {lit a : List Char} (b : List Char)
    (h : lit.length ≤ a.length) :
    stripLit lit (a ++ b) = (stripLit lit a).map (fun r => r ++ b) := by
  induction lit generalizing a with
  | nil => simp [stripLit]
  | cons l ls ih =>
    cases a with
    | nil => simp at h
    | cons c cs =>
      rw [List.cons_append, stripLit, stripLit]
      by_cases hc : l = c
      · simp only [hc, if_pos rfl]
        exact ih (Nat.succ_le_succ_iff.mp h)
      · simp [hc]

theorem stripLit_cross {lit a : List Char} (b : List Char)
    (hnl : '\n' ∉ lit) (hlast : a.getLast? = some '\n')
    (hlen : a.length < lit.length) : stripLit lit (a ++ b) = none := by
  induction a generalizing lit with
  | nil => simp at hlast
  | cons c cs ih =>
    cases lit with
    | nil => simp at hlen
    | cons l ls =>
      rw [List.cons_append, stripLit]
      by_cases hc : l = c
      · simp only [hc, if_pos rfl]
        cases cs with
        | nil =>
          simp only [List.getLast?_singleton, Option.some.injEq] at hlast
          exact absurd (hlast ▸ hc ▸ List.mem_cons_self l ls) hnl
        | cons c2 cs2 =>
          refine ih (fun hm => hnl (List.mem_cons_of_mem l hm)) ?_
            (Nat.lt_of_succ_lt_succ hlen)
          rwa [List.getLast?_cons_cons] at hlast
      · simp [hc]

theorem stripLit_stopper {lit a b r : List Char}
    (hlit : ';' ∉ lit) (ha : ';' ∉ a)
    (h : stripLit lit (a ++ ';' :: b) = some r) :
    ∃ a2, a = lit ++ a2 ∧ r = a2 ++ ';' :: b ∧ ';' ∉ a2 := by
  induction lit generalizing a with
  | nil =>
    refine ⟨a, rfl, ?_, ha⟩
    simpa [stripLit] using h.symm
  | cons l ls ih =>
    cases a with
    | nil =>
      rw [List.nil_append, stripLit] at h
      by_cases hl : l = ';'
      · exact absurd (hl ▸ List.mem_cons_self l ls) hlit
      · simp [hl] at h
    | cons c cs =>
      rw [List.cons_append, stripLit] at h
      by_cases hc : l = c
      · simp only [hc, if_pos rfl] at h
        obtain ⟨a2, h1, h2, h3⟩ :=
          ih (fun hm => hlit (List.mem_cons_of_mem l hm))
            (fun hm => ha (List.mem_cons_of_mem c hm)) h
        exact ⟨a2, by rw [h1, hc, List.cons_append], h2, h3⟩
      · simp [hc] at h

theorem subAux_cons_true_some {c : Char} {cs rem : List Char} (repl : List Char)
    (hm : matchPkgAt (c :: cs) = some rem) :
    subAux repl (c :: cs) true = repl ++ rem := by
  simp [subAux, hm]

theorem subAux_cons_true_none {c : Char} {cs : List Char} (repl : List Char)
    (hm : matchPkgAt (c :: cs) = none) :
    subAux repl (c :: cs) true = c :: subAux repl cs (decide (c = '\n')) := by
  simp [subAux, hm]

theorem subAux_cons_false {c : Char} {cs : List Char} (repl : List Char) :
    subAux repl (c :: cs) false = c :: subAux repl cs (decide (c = '\n')) := by
  simp [subAux]

theorem findMatch_cons_true_some {c : Char} {cs rem : List Char}
    (hm : matchPkgAt (c :: cs) = some rem) :
    findMatch (c :: cs) true = some ([], rem) := by
  simp [findMatch, hm]

theorem findMatch_cons_true_none {c : Char} {cs : List Char}
    (hm : matchPkgAt (c :: cs) = none) :
    findMatch (c :: cs) true =
      (findMatch cs (decide (c = '\n'))).map (fun p => (c :: p.1, p.2)) := by
  simp [findMatch, hm]

theorem findMatch_cons_false {c : Char} {cs : List Char} :
    findMatch (c :: cs) false =
      (findMatch cs (decide (c = '\n'))).map (fun p => (c :: p.1, p.2)) := by
  simp [findMatch]

theorem lastFlag_cons (c : Char) (w : List Char) (b : Bool) :
    lastFlag (c :: w) b = lastFlag w (decide (c = '\n')) := by
  cases w with
  | nil => simp [lastFlag, List.getLast?_singleton]
  | cons e w' =>
    rw [lastFlag, lastFlag, List.getLast?_cons_cons]
    cases hg : (e :: w').getLast? with
    | none => exact absurd (List.getLast?_eq_none_iff.mp hg) (by simp)
    | some d => rfl

theorem subAux_of_findMatch_none {s : List Char} {b : Bool}
    (repl : List Char) (h : findMatch s b = none) : subAux repl s b = s := by
  induction s generalizing b with
  | nil => rfl
  | cons c cs ih =>
    cases b with
    | true =>
      cases hm : matchPkgAt (c :: cs) with
      | some rem => rw [findMatch_cons_true_some hm] at h; exact absurd h (by simp)
      | none =>
        rw [findMatch_cons_true_none hm, Option.map_eq_none'] at h
        rw [subAux_cons_true_none repl hm, ih h]
    | false =>
      rw [findMatch_cons_false, Option.map_eq_none'] at h
      rw [subAux_cons_false repl, ih h]

theorem findMatch_some {s : List Char} {b : Bool} {w rem : List Char}
    (h : findMatch s b = some (w, rem)) :
    ∃ v, s = w ++ v ∧ matchPkgAt v = some rem ∧
      (∀ repl, subAux repl s b = w ++ repl ++ rem) ∧
      (∀ w1 w2, w = w1 ++ w2 → w2 ≠ [] →
        ((w1 = [] ∧ b = true) ∨ w1.getLast? = some '\n') →
        matchPkgAt (w2 ++ v) = none) ∧
      lastFlag w b = true := by
  induction s generalizing b w with
  | nil => simp [findMatch] at h
  | cons c cs ih =>
    have step :
        ∀ w' : List Char,
        (b = true → matchPkgAt (c :: cs) = none) →
        (∀ repl, subAux repl (c :: cs) b = c :: subAux repl cs (decide (c = '\n'))) →
        findMatch cs (decide (c = '\n')) = some (w', rem) → w = c :: w' →
        ∃ v, c :: cs = w ++ v ∧ matchPkgAt v = some rem ∧
          (∀ repl, subAux repl (c :: cs) b = w ++ repl ++ rem) ∧
          (∀ w1 w2, w = w1 ++ w2 → w2 ≠ [] →
            ((w1 = [] ∧ b = true) ∨ w1.getLast? = some '\n') →
            matchPkgAt (w2 ++ v) = none) ∧
          lastFlag w b = true := by
      intro w' hbf hsubeq hfm hw
      obtain ⟨v, hsv, hmv, hsub, hcand, hflag⟩ := ih hfm
      refine ⟨v, by rw [hw, List.cons_append, ← hsv], hmv, ?_, ?_, ?_⟩
      · intro repl
        rw [hsubeq repl, hsub repl, hw]
        simp [List.append_assoc]
      · intro w1 w2 hsplit hne hpos
        cases w1 with
        | nil =>
          rw [List.nil_append] at hsplit
          rcases hpos with ⟨_, hb⟩ | hlast
          · rw [← hsplit, hw, List.cons_append, ← hsv]
            exact hbf hb
          · simp at hlast
        | cons d w1' =>
          rw [hw] at hsplit
          injection hsplit with hdd hsplit'
          subst hdd
          refine hcand w1' w2 hsplit' hne ?_
          cases w1' with
          | nil =>
            rcases hpos with ⟨habs, _⟩ | hlast
            · exact absurd habs (by simp)
            · simp only [List.getLast?_singleton, Option.some.injEq] at hlast
              exact Or.inl ⟨rfl, by simp [hlast]⟩
          | cons e w1'' =>
            rcases hpos with ⟨habs, _⟩ | hlast
            · exact absurd habs (by simp)
            · rw [List.getLast?_cons_cons] at hlast
              exact Or.inr hlast
      · rw [hw, lastFlag_cons]
        exact hflag
    cases b with
    | true =>
      cases hm : matchPkgAt (c :: cs) with
      | some rem0 =>
        rw [findMatch_cons_true_some hm] at h
        injection h with h1
        injection h1 with hw hrem
        subst hrem
        subst hw
        refine ⟨c :: cs, rfl, hm, ?_, ?_, rfl⟩
        · intro repl
          rw [subAux_cons_true_some repl hm, List.nil_append]
        · intro w1 w2 hsplit hne hpos
          exact absurd (List.append_eq_nil.mp hsplit.symm).2 hne
      | none =>
        rw [findMatch_cons_true_none hm, Option.map_eq_some'] at h
        obtain ⟨⟨w', rem'⟩, hfm, hpair⟩ := h
        injection hpair with hw hrem
        subst hrem
        exact step w' (fun _ => hm) (fun repl => subAux_cons_true_none repl hm) hfm hw.symm
    | false =>
      rw [findMatch_cons_false, Option.map_eq_some'] at h
      obtain ⟨⟨w', rem'⟩, hfm, hpair⟩ := h
      injection hpair with hw hrem
      subst hrem
      exact step w' (fun habs => absurd habs (by simp)) (fun repl => subAux_cons_false repl) hfm hw.symm
theorem mainLoop_sum {l : List (String × String)} {fs : FS} {base : String}
    {total t : Nat} {fs2 : FS}
    (h : mainLoop fs base total l = .ok (t, fs2)) :
    ∃ cs, entryCounts fs base l = some cs ∧ t = total + cs.sum := by
  induction l generalizing fs total with
  | nil =>
    refine ⟨[], rfl, ?_⟩
    simp only [mainLoop] at h
    injection h with h1
    injection h1 with h2 h3
    simp [← h2]
  | cons e rest ih =>
    obtain ⟨rel, pkg⟩ := e
    rw [mainLoop] at h
    cases hp : process_directory fs base rel pkg with
    | error err => rw [hp] at h; exact absurd h (by simp)
    | ok p =>
      obtain ⟨c, fs1⟩ := p
      rw [hp] at h
      obtain ⟨cs, hcs, hsum⟩ := ih h
      refine ⟨c :: cs, ?_, ?_⟩
      · rw [entryCounts, hp]
        dsimp only
        rw [hcs]
        rfl
      · simp [hsum, List.sum_cons]
        omega

theorem process_directory_absent {fs : FS} {base rel : String} (p : String)
    (h : fs.pathExists (joinPath base rel) = false) :
    process_directory fs base rel p = .ok (0, fs) := by
  simp [process_directory, h]

theorem findEntry_write_ne {nodes : List (String × FsNode)} {q p : String}
    (hne : q ≠ p) (c : String) :
    findEntry ((p, FsNode.file c) :: nodes) q = findEntry nodes q := by
  simp [findEntry, hne]

theorem process_files_frame {entries : List String} {fs : FS} {dir new_package : String}
    {n : Nat} {fs2 : FS}
    (h : process_files fs dir entries new_package = .ok (n, fs2)) :
    ∀ q : String,
      (∀ f, f ∈ entries → strEndsWith f ".java" = true → q ≠ joinPath dir f) →
      fs2.find q = fs.find q := by
  induction entries generalizing fs n with
  | nil =>
    intro q _
    rw [process_files] at h
    injection h with h1
    injection h1 with _ h3
    rw [← h3]
  | cons f rest ih =>
    intro q hq
    rw [process_files] at h
    by_cases hjava : strEndsWith f ".java" = true
    · rw [if_pos hjava] at h
      cases hu : update_package_declaration fs (joinPath dir f) new_package with
      | error e => rw [hu] at h; exact absurd h (by simp)
      | ok bp =>
        obtain ⟨updated, fs1⟩ := bp
        rw [hu] at h
        dsimp only at h
        cases hrest : process_files fs1 dir rest new_package with
        | error e => rw [hrest] at h; exact absurd h (by simp)
        | ok nq =>
          obtain ⟨n1, fs3⟩ := nq
          rw [hrest] at h
          dsimp only at h
          injection h with h1
          injection h1 with _ h3
          subst h3
          have step1 : fs1.find q = fs.find q := by
            unfold update_package_declaration at hu
            cases hrd : fs.read (joinPath dir f) with
            | error e => rw [hrd] at hu; exact absurd hu (by simp)
            | ok content =>
              rw [hrd] at hu
              dsimp only at hu
              by_cases hch : re_sub_pkg content new_package ≠ content
              · rw [if_pos hch] at hu
                injection hu with hu1
                injection hu1 with _ hu3
                rw [← hu3]
                exact findEntry_write_ne (hq f (List.mem_cons_self f rest) hjava) _
              · rw [if_neg hch] at hu
                injection hu with hu1
                injection hu1 with _ hu3
                rw [← hu3]
          have step2 : fs3.find q = fs1.find q :=
            ih hrest q (fun g hg hgj => hq g (List.mem_cons_of_mem f hg) hgj)
          rw [step2, step1]
    · rw [if_neg hjava] at h
      exact ih h q (fun g hg hgj => hq g (List.mem_cons_of_mem f hg) hgj)

theorem process_files_append {l1 l2 : List String} {fs : FS} {dir new_package : String} :
    process_files fs dir (l1 ++ l2) new_package =
      match process_files fs dir l1 new_package with
      | .error e => .error e
      | .ok (n1, fs1) =>
        match process_files fs1 dir l2 new_package with
        | .error e => .error e
        | .ok (n2, fs2) => .ok (n1 + n2, fs2) := by
  induction l1 generalizing fs with
  | nil =>
    cases h2 : process_files fs dir l2 new_package with
    | error e => simp [process_files, h2]
    | ok p => obtain ⟨n2, fs2⟩ := p; simp [process_files, h2]
  | cons f rest ih =>
    rw [List.cons_append, process_files, process_files]
    by_cases hjava : strEndsWith f ".java" = true
    · rw [if_pos hjava, if_pos hjava]
      cases hu : update_package_declaration fs (joinPath dir f) new_package with
      | error e => rfl
      | ok bp =>
        obtain ⟨u, fs1⟩ := bp
        dsimp only
        rw [ih]
        cases h1 : process_files fs1 dir rest new_package with
        | error e => rfl
        | ok p1 =>
          obtain ⟨n1, fsA⟩ := p1
          dsimp only
          cases h2 : process_files fsA dir l2 new_package with
          | error e => rfl
          | ok p2 =>
            obtain ⟨n2, fsB⟩ := p2
            dsimp only
            rw [Nat.add_assoc]
    · rw [if_neg hjava, if_neg hjava]
      exact ih

theorem dropWhile_append_all {p : Char → Bool} {l1 : List Char} (l2 : List Char)
    (h : ∀ a ∈ l1, p a = true) : (l1 ++ l2).dropWhile p = l2.dropWhile p := by
  have h0 : l1.dropWhile p = [] := List.dropWhile_eq_nil_iff.mpr h
  simp [List.dropWhile_append, h0]

theorem dropWhile_append_ex {p : Char → Bool} {l1 : List Char} (l2 : List Char)
    (h : l1.dropWhile p ≠ []) : (l1 ++ l2).dropWhile p = l1.dropWhile p ++ l2 := by
  rw [List.dropWhile_append, if_neg]
  simpa using h

theorem dropWhile_getLast {p : Char → Bool} {l : List Char}
    (h : l.dropWhile p ≠ []) : (l.dropWhile p).getLast? = l.getLast? := by
  conv_rhs => rw [← List.takeWhile_append_dropWhile p l]
  rw [List.getLast?_append_of_ne_nil _ h]

theorem dropWhile_head_false {p : Char → Bool} :
    ∀ {l : List Char} {d : Char} {r : List Char}, l.dropWhile p = d :: r → p d = false := by
  intro l
  induction l with
  | nil => intro d r h; simp [List.dropWhile] at h
  | cons a t ih =>
    intro d r h
    rw [List.dropWhile_cons] at h
    by_cases ha : p a = true
    · rw [if_pos ha] at h
      exact ih h
    · rw [if_neg ha] at h
      injection h with h1 _
      rw [← h1]
      simpa using ha

theorem dropWhile_semi {l : List Char} (h : ';' ∈ l) :
    ∃ r, l.dropWhile (fun d => d ≠ ';') = ';' :: r := by
  induction l with
  | nil => simp at h
  | cons a t ih =>
    rw [List.dropWhile_cons]
    by_cases ha : a = ';'
    · subst ha
      rw [if_neg (by simp)]
      exact ⟨t, rfl⟩
    · rw [if_pos (by simpa using ha)]
      rcases List.mem_cons.mp h with heq | hmem
      · exact absurd heq.symm ha
      · exact ih hmem

theorem matchPkgAt_some_elim {v rem : List Char} (h : matchPkgAt v = some rem) :
    ∃ s1 s2 s3 s4, stripLit "package".data v = some s1 ∧ stageSp s1 = some s2 ∧
      stripLit "org.lareferencia.".data s2 = some s3 ∧ stageBr s3 = some s4 ∧
      stageBody s4 = some rem := by
  rw [matchPkgAt] at h
  cases h1 : stripLit "package".data v with
  | none => rw [h1] at h; exact absurd h (by simp)
  | some s1 =>
    rw [h1] at h
    dsimp only [Option.bind] at h
    cases h2 : stageSp s1 with
    | none => rw [h2] at h; exact absurd h (by simp)
    | some s2 =>
      rw [h2] at h
      dsimp only [Option.bind] at h
      cases h3 : stripLit "org.lareferencia.".data s2 with
      | none => rw [h3] at h; exact absurd h (by simp)
      | some s3 =>
        rw [h3] at h
        dsimp only [Option.bind] at h
        cases h4 : stageBr s3 with
        | none => rw [h4] at h; exact absurd h (by simp)
        | some s4 =>
          rw [h4] at h
          dsimp only [Option.bind] at h
          exact ⟨s1, s2, s3, s4, rfl, h2, h3, h4, h⟩

theorem stageSp_some {s r : List Char} (h : stageSp s = some r) :
    ∃ wsp, s = wsp ++ r ∧ wsp ≠ [] := by
  cases s with
  | nil => simp [stageSp] at h
  | cons c cs =>
    rw [stageSp] at h
    by_cases hc : isSpace c = true
    · rw [if_pos hc] at h
      injection h with h1
      refine ⟨c :: cs.takeWhile isSpace, ?_, by simp⟩
      rw [← h1, List.cons_append]
      congr 1
      exact (List.takeWhile_append_dropWhile isSpace cs).symm
    · rw [if_neg hc] at h
      exact absurd h (by simp)

theorem stageBr_some {s r : List Char} (h : stageBr s = some r) :
    s = "backend.".data ++ r ∨ s = "core.".data ++ r := by
  rw [stageBr] at h
  cases hb : stripLit "backend.".data s with
  | some rb =>
    rw [hb] at h
    dsimp only at h
    injection h with h1
    exact Or.inl (by rw [← h1]; exact stripLit_some hb)
  | none =>
    rw [hb] at h
    dsimp only at h
    exact Or.inr (stripLit_some h)

theorem stageBody_some {s r : List Char} (h : stageBody s = some r) :
    ∃ b0, s = b0 ++ ';' :: r ∧ b0 ≠ [] ∧ ';' ∉ b0 := by
  cases s with
  | nil => simp [stageBody] at h
  | cons c cs =>
    rw [stageBody] at h
    by_cases hc : c = ';'
    · rw [if_pos hc] at h
      exact absurd h (by simp)
    · rw [if_neg hc] at h
      cases hdw : cs.dropWhile (fun d => d ≠ ';') with
      | nil => rw [hdw] at h; exact absurd h (by simp)
      | cons d r2 =>
        rw [hdw] at h
        dsimp only at h
        have hd : d = ';' := by
          have := dropWhile_head_false hdw
          simpa using this
        rw [if_pos hd] at h
        injection h with h1
        subst h1
        refine ⟨c :: cs.takeWhile (fun d => d ≠ ';'), ?_, by simp, ?_⟩
        · rw [List.cons_append]
          congr 1
          conv_lhs => rw [← List.takeWhile_append_dropWhile (fun d => d ≠ ';') cs]
          rw [hdw, hd]
        · intro hmem
          rcases List.mem_cons.mp hmem with heq | hmem2
          · exact hc heq.symm
          · have := List.mem_takeWhile_imp hmem2
            simp at this

theorem matchPkgAt_semi {v rem : List Char} (h : matchPkgAt v = some rem) :
    ';' ∈ v := by
  obtain ⟨s1, s2, s3, s4, h1, h2, h3, h4, h5⟩ := matchPkgAt_some_elim h
  obtain ⟨b0, hs4, _, _⟩ := stageBody_some h5
  have hm4 : ';' ∈ s4 := by rw [hs4]; simp
  have hm3 : ';' ∈ s3 := by
    rcases stageBr_some h4 with h' | h' <;> rw [h'] <;> simp [hm4]
  have hm2 : ';' ∈ s2 := by rw [stripLit_some h3]; simp [hm3]
  have hm1 : ';' ∈ s1 := by
    obtain ⟨wsp, hs1, _⟩ := stageSp_some h2
    rw [hs1]
    simp [hm2]
  rw [stripLit_some h1]
  simp [hm1]

theorem matchPkgAt_head {v rem : List Char} (h : matchPkgAt v = some rem) :
    v.head? = some 'p' := by
  obtain ⟨s1, _, _, _, h1, _, _, _, _⟩ := matchPkgAt_some_elim h
  rw [stripLit_some h1]
  rfl

theorem stripLit_boundary (lit : List Char) {u : List Char} (x y : List Char)
    (hnl : '\n' ∉ lit) (hu : u.getLast? = some '\n') :
    (stripLit lit (u ++ x) = none ∧ stripLit lit (u ++ y) = none) ∨
    (∃ u1, stripLit lit (u ++ x) = some (u1 ++ x) ∧
      stripLit lit (u ++ y) = some (u1 ++ y) ∧ u1.getLast? = some '\n') := by
  by_cases hlen : lit.length ≤ u.length
  · rw [stripLit_append_long x hlen, stripLit_append_long y hlen]
    cases hsl : stripLit lit u with
    | none => left; simp
    | some u1 =>
      right
      refine ⟨u1, by simp, by simp, ?_⟩
      have husplit := stripLit_some hsl
      cases hu1 : u1 with
      | nil =>
        rw [hu1, List.append_nil] at husplit
        rw [husplit] at hu
        exact absurd (List.mem_of_mem_getLast? (by simp [hu])) hnl
      | cons a t =>
        rw [husplit, List.getLast?_append_of_ne_nil _ (by simp [hu1]), hu1] at hu
        exact hu
  · push_neg at hlen
    left
    exact ⟨stripLit_cross x hnl hu hlen, stripLit_cross y hnl hu hlen⟩

theorem stageBr_boundary {u3 : List Char} (x y : List Char)
    (hu3 : u3.getLast? = some '\n') :
    (stageBr (u3 ++ x) = none ∧ stageBr (u3 ++ y) = none) ∨
    (∃ u4, stageBr (u3 ++ x) = some (u4 ++ x) ∧
      stageBr (u3 ++ y) = some (u4 ++ y) ∧ u4.getLast? = some '\n') := by
  rcases stripLit_boundary "backend.".data x y (by decide) hu3 with ⟨hbx, hby⟩ | ⟨u4, hbx, hby, hu4⟩
  · rcases stripLit_boundary "core.".data x y (by decide) hu3 with ⟨hcx, hcy⟩ | ⟨u4, hcx, hcy, hu4⟩
    · left
      constructor
      · rw [stageBr, hbx]
        exact hcx
      · rw [stageBr, hby]
        exact hcy
    · right
      refine ⟨u4, ?_, ?_, hu4⟩
      · rw [stageBr, hbx]
        exact hcx
      · rw [stageBr, hby]
        exact hcy
  · right
    refine ⟨u4, ?_, ?_, hu4⟩
    · rw [stageBr, hbx]
    · rw [stageBr, hby]

/-- Stability of a failed anchor attempt: a position that failed to match
with the original continuation x still fails when the continuation is
replaced by another text y, provided the prefix up to the old match start
ends with a newline (it was scanned up to a line start), both continuations
start with the letter p of the literal package, and x contains a semicolon.
The proof walks the pattern stages; whenever a stage would cross from the
prefix into the continuation, either it fails identically for both
continuations (the literals contain no newline, so they cannot straddle the
final newline of the prefix), or the attempt with x is forced to succeed,
contradicting its assumed failure. -/
theorem matchPkgAt_stable {u x y : List Char}
    (hu : u.getLast? = some '\n')
    (hx : x.head? = some 'p') (hy : y.head? = some 'p')
    (hsemi : ';' ∈ x)
    (hnone : matchPkgAt (u ++ x) = none) :
    matchPkgAt (u ++ y) = none := by
  obtain ⟨xt, hxt⟩ : ∃ t, x = 'p' :: t := by
    cases x with
    | nil => simp at hx
    | cons a t =>
      refine ⟨t, ?_⟩
      injection hx with h1
      rw [h1]
  obtain ⟨yt, hyt⟩ : ∃ t, y = 'p' :: t := by
    cases y with
    | nil => simp at hy
    | cons a t =>
      refine ⟨t, ?_⟩
      injection hy with h1
      rw [h1]
  rcases stripLit_boundary "package".data x y (by decide) hu with ⟨h1x, h1y⟩ | ⟨u1, h1x, h1y, hu1⟩
  · rw [matchPkgAt, h1y]
    rfl
  · rw [matchPkgAt, h1x] at hnone
    dsimp only [Option.bind] at hnone
    obtain ⟨c, cs, rfl⟩ : ∃ c cs, u1 = c :: cs := by
      cases u1 with
      | nil => simp at hu1
      | cons c cs => exact ⟨c, cs, rfl⟩
    by_cases hc : isSpace c = true
    · by_cases hall : ∀ a ∈ cs, isSpace a = true
      · -- the whitespace run is stopped exactly at the boundary by the
        -- letter p, and the following literal then fails on both sides
        have h2y : stageSp ((c :: cs) ++ y) = some y := by
          rw [List.cons_append, stageSp, if_pos hc, dropWhile_append_all y hall, hyt,
            List.dropWhile_cons, if_neg (by decide)]
        have h3y : stripLit "org.lareferencia.".data y = none := by
          rw [hyt]
          rfl
        rw [matchPkgAt, h1y]
        dsimp only [Option.bind]
        rw [h2y]
        dsimp only [Option.bind]
        rw [h3y]
      · push_neg at hall
        have hne : cs.dropWhile isSpace ≠ [] := by
          intro hempty
          obtain ⟨a, ham, hna⟩ := hall
          exact hna (List.dropWhile_eq_nil_iff.mp hempty a ham)
        have hcs_ne : cs ≠ [] := by
          intro h0
          rw [h0] at hne
          simp at hne
        have h2x : stageSp ((c :: cs) ++ x) = some (cs.dropWhile isSpace ++ x) := by
          rw [List.cons_append, stageSp, if_pos hc, dropWhile_append_ex x hne]
        have h2y : stageSp ((c :: cs) ++ y) = some (cs.dropWhile isSpace ++ y) := by
          rw [List.cons_append, stageSp, if_pos hc, dropWhile_append_ex y hne]
        have hu2 : (cs.dropWhile isSpace).getLast? = some '\n' := by
          rw [dropWhile_getLast hne]
          cases hcs : cs with
          | nil => exact absurd hcs hcs_ne
          | cons c2 t2 =>
            rw [hcs, List.getLast?_cons_cons] at hu1
            exact hu1
        rcases stripLit_boundary "org.lareferencia.".data x y (by decide) hu2 with
          ⟨h3x, h3y⟩ | ⟨u3, h3x, h3y, hu3⟩
        · rw [matchPkgAt, h1y]
          dsimp only [Option.bind]
          rw [h2y]
          dsimp only [Option.bind]
          rw [h3y]
        · rcases stageBr_boundary x y hu3 with ⟨h4x, h4y⟩ | ⟨u4, h4x, h4y, hu4⟩
          · rw [matchPkgAt, h1y]
            dsimp only [Option.bind]
            rw [h2y]
            dsimp only [Option.bind]
            rw [h3y]
            dsimp only [Option.bind]
            rw [h4y]
          · obtain ⟨d, ds, rfl⟩ : ∃ d ds, u4 = d :: ds := by
              cases u4 with
              | nil => simp at hu4
              | cons d ds => exact ⟨d, ds, rfl⟩
            by_cases hd : d = ';'
            · have h5y : stageBody ((d :: ds) ++ y) = none := by
                rw [List.cons_append, stageBody, if_pos hd]
              rw [matchPkgAt, h1y]
              dsimp only [Option.bind]
              rw [h2y]
              dsimp only [Option.bind]
              rw [h3y]
              dsimp only [Option.bind]
              rw [h4y]
              dsimp only [Option.bind]
              rw [h5y]
            · have hsem2 : ';' ∈ ds ++ x := List.mem_append.mpr (Or.inr hsemi)
              obtain ⟨r, hdw⟩ := dropWhile_semi hsem2
              have h5x : stageBody ((d :: ds) ++ x) = some r := by
                rw [List.cons_append, stageBody, if_neg hd, hdw]
                simp
              rw [h2x] at hnone
              dsimp only [Option.bind] at hnone
              rw [h3x] at hnone
              dsimp only [Option.bind] at hnone
              rw [h4x] at hnone
              dsimp only [Option.bind] at hnone
              rw [h5x] at hnone
              exact absurd hnone (by simp)
    · have h2y : stageSp ((c :: cs) ++ y) = none := by
        rw [List.cons_append, stageSp, if_neg hc]
      rw [matchPkgAt, h1y]
      dsimp only [Option.bind]
      rw [h2y]

theorem replacementOf_eq (p : String) :
    replacementOf p = "package ".data ++ p.data ++ [';'] := by
  rw [replacementOf, String.data_append, String.data_append]

theorem replacementOf_ne_nil (p : String) : replacementOf p ≠ [] := by
  rw [replacementOf_eq]
  have : "package ".data = 'p' :: "ackage ".data := by decide
  rw [this]
  simp

theorem replacementOf_head (p : String) (rem : List Char) :
    (replacementOf p ++ rem).head? = some 'p' := by
  rw [replacementOf_eq]
  have : "package ".data = 'p' :: "ackage ".data := by decide
  rw [this]
  rfl

theorem replacementOf_not_newline {p : String} (hp : '\n' ∉ p.data) :
    '\n' ∉ replacementOf p := by
  rw [replacementOf_eq]
  intro hmem
  rcases List.mem_append.mp hmem with hmem1 | hmem2
  · rcases List.mem_append.mp hmem1 with hmem3 | hmem4
    · revert hmem3
      decide
    · exact hp hmem4
  · revert hmem2
    decide

theorem lastFlag_true {w : List Char} {b : Bool}
    (h : lastFlag w b = true) (hne : w ≠ []) : w.getLast? = some '\n' := by
  rw [lastFlag] at h
  cases hg : w.getLast? with
  | none => exact absurd (List.getLast?_eq_none_iff.mp hg) hne
  | some a =>
    rw [hg] at h
    simp only [decide_eq_true_eq] at h
    rw [h]

theorem stageBody_exact {q b : List Char} (hq : q ≠ []) (hsq : ';' ∉ q) :
    stageBody (q ++ ';' :: b) = some b := by
  cases q with
  | nil => exact absurd rfl hq
  | cons d ds =>
    have hd : ¬ (d = ';') := fun hh => hsq (by rw [hh]; exact List.mem_cons_self ';' ds)
    rw [List.cons_append, stageBody, if_neg hd]
    have hall : ∀ a ∈ ds, (decide (a ≠ ';')) = true := by
      intro a ha
      simp only [decide_eq_true_eq]
      exact fun hh => hsq (by rw [← hh]; exact List.mem_cons_of_mem d (hh ▸ ha))
    have hdw2 : (ds ++ ';' :: b).dropWhile (fun d => d ≠ ';') = ';' :: b := by
      rw [dropWhile_append_all _ hall, List.dropWhile_cons, if_neg (by simp)]
    rw [hdw2]
    dsimp only
    rw [if_pos rfl]

theorem matchPkgAt_repl_cases (p : String) (rem : List Char) (hp : ';' ∉ p.data) :
    matchPkgAt (replacementOf p ++ rem) = none ∨
    matchPkgAt (replacementOf p ++ rem) = some rem := by
  have hps : "package ".data = "package".data ++ [' '] := by decide
  have hsplit : replacementOf p ++ rem =
      "package".data ++ (' ' :: (p.data ++ ';' :: rem)) := by
    rw [replacementOf_eq, hps]
    simp
  rw [hsplit, matchPkgAt, stripLit_self]
  dsimp only [Option.bind]
  rw [stageSp, if_pos (by decide)]
  dsimp only [Option.bind]
  have hdw : (p.data ++ ';' :: rem).dropWhile isSpace =
      p.data.dropWhile isSpace ++ ';' :: rem := by
    by_cases hcase : p.data.dropWhile isSpace = []
    · rw [dropWhile_append_all _ (List.dropWhile_eq_nil_iff.mp hcase), hcase,
        List.nil_append, List.dropWhile_cons, if_neg (by decide)]
    · exact dropWhile_append_ex _ hcase
  rw [hdw]
  have hq : ';' ∉ p.data.dropWhile isSpace :=
    fun hmem => hp ((List.dropWhile_sublist isSpace).subset hmem)
  cases h3 : stripLit "org.lareferencia.".data (p.data.dropWhile isSpace ++ ';' :: rem) with
  | none => left; rfl
  | some s3 =>
    dsimp only [Option.bind]
    obtain ⟨q2, _, hs3, hq2⟩ := stripLit_stopper (by decide) hq h3
    rw [hs3]
    cases h4 : stageBr (q2 ++ ';' :: rem) with
    | none => left; rfl
    | some s4 =>
      dsimp only [Option.bind]
      rw [stageBr] at h4
      rcases hbr : stripLit "backend.".data (q2 ++ ';' :: rem) with _ | rb
      · rw [hbr] at h4
        dsimp only at h4
        obtain ⟨q3, _, hs4, hq3⟩ := stripLit_stopper (by decide) hq2 h4
        rw [hs4]
        cases hq3nil : q3 with
        | nil =>
          left
          rw [List.nil_append, stageBody, if_pos rfl]
        | cons e es =>
          right
          exact stageBody_exact (by simp) (by rw [hq3nil] at hq3; exact hq3)
      · rw [hbr] at h4
        dsimp only at h4
        injection h4 with h4e
        obtain ⟨q3, _, hs4, hq3⟩ := stripLit_stopper (by decide) hq2 hbr
        rw [← h4e, hs4]
        cases hq3nil : q3 with
        | nil =>
          left
          rw [List.nil_append, stageBody, if_pos rfl]
        | cons e es =>
          right
          exact stageBody_exact (by simp) (by rw [hq3nil] at hq3; exact hq3)

theorem matchPkgAt_repl_core (X : String) (rem : List Char)
    (hne : X.data ≠ []) (hs : ';' ∉ X.data) :
    matchPkgAt (replacementOf ("org.lareferencia.core." ++ X) ++ rem) = some rem := by
  have hps : "package ".data = "package".data ++ [' '] := by decide
  have horg : ("org.lareferencia.core." ++ X).data =
      "org.lareferencia.".data ++ ("core.".data ++ X.data) := by
    rw [String.data_append]
    have : "org.lareferencia.core.".data =
        "org.lareferencia.".data ++ "core.".data := by decide
    rw [this, List.append_assoc]
  have hsplit : replacementOf ("org.lareferencia.core." ++ X) ++ rem =
      "package".data ++ (' ' :: ("org.lareferencia.".data ++
        ("core.".data ++ (X.data ++ ';' :: rem)))) := by
    rw [replacementOf_eq, hps, horg]
    simp
  rw [hsplit, matchPkgAt, stripLit_self]
  dsimp only [Option.bind]
  rw [stageSp, if_pos (by decide)]
  dsimp only [Option.bind]
  have hnospace : ("org.lareferencia.".data ++
      ("core.".data ++ (X.data ++ ';' :: rem))).dropWhile isSpace =
      "org.lareferencia.".data ++ ("core.".data ++ (X.data ++ ';' :: rem)) := by
    have : "org.lareferencia.".data = 'o' :: "rg.lareferencia.".data := by decide
    rw [this, List.cons_append, List.dropWhile_cons, if_neg (by decide)]
  rw [hnospace, stripLit_self]
  dsimp only [Option.bind]
  have hbr : stageBr ("core.".data ++ (X.data ++ ';' :: rem)) =
      some (X.data ++ ';' :: rem) := by
    rw [stageBr]
    have hbk : stripLit "backend.".data ("core.".data ++ (X.data ++ ';' :: rem)) = none := by
      have : "core.".data = 'c' :: "ore.".data := by decide
      rw [this]
      rfl
    rw [hbk, stripLit_self]
  rw [hbr]
  dsimp only [Option.bind]
  exact stageBody_exact hne hs

theorem subAux_scan {w : List Char} {b : Bool} (X repl : List Char)
    (hcand : ∀ w1 w2, w = w1 ++ w2 → w2 ≠ [] →
      ((w1 = [] ∧ b = true) ∨ w1.getLast? = some '\n') →
      matchPkgAt (w2 ++ X) = none) :
    subAux repl (w ++ X) b = w ++ subAux repl X (lastFlag w b) := by
  induction w generalizing b with
  | nil => rfl
  | cons c w2 ih =>
    have hstep : subAux repl ((c :: w2) ++ X) b =
        c :: subAux repl (w2 ++ X) (decide (c = '\n')) := by
      cases b with
      | false => rw [List.cons_append, subAux_cons_false]
      | true =>
        have hm0 : matchPkgAt ((c :: w2) ++ X) = none :=
          hcand [] (c :: w2) rfl (by simp) (Or.inl ⟨rfl, rfl⟩)
        rw [List.cons_append] at hm0 ⊢
        rw [subAux_cons_true_none repl hm0]
    rw [hstep, lastFlag_cons, List.cons_append]
    congr 1
    refine ih ?_
    intro w1 w3 hsplit hne hpos
    rcases hpos with ⟨h1, h2⟩ | hlast
    · subst h1
      rw [List.nil_append] at hsplit
      refine hcand [c] w3 (by rw [hsplit]; rfl) hne (Or.inr ?_)
      simp only [decide_eq_true_eq] at h2
      simp [h2]
    · refine hcand (c :: w1) w3 (by rw [hsplit]; rfl) hne (Or.inr ?_)
      cases w1 with
      | nil => simp at hlast
      | cons e t =>
        rw [List.getLast?_cons_cons]
        exact hlast

theorem subAux_no_newline (tail repl : List Char) :
    ∀ (z : List Char) (b : Bool), z ≠ [] → '\n' ∉ z →
    (b = true → matchPkgAt (z ++ tail) = none) →
    subAux repl (z ++ tail) b = z ++ subAux repl tail false := by
  intro z
  induction z with
  | nil => intro b hz; exact absurd rfl hz
  | cons c z2 ih =>
    intro b hz hnl hm
    have hcnl : ¬ (c = '\n') := fun h => hnl (by rw [h]; exact List.mem_cons_self '\n' z2)
    have hflag : decide (c = '\n') = false := by simp [hcnl]
    have hstep : subAux repl ((c :: z2) ++ tail) b =
        c :: subAux repl (z2 ++ tail) (decide (c = '\n')) := by
      cases b with
      | false => rw [List.cons_append, subAux_cons_false]
      | true =>
        have hm0 := hm rfl
        rw [List.cons_append] at hm0 ⊢
        rw [subAux_cons_true_none repl hm0]
    by_cases hz2 : z2 = []
    · subst hz2
      rw [hstep, hflag]
      rfl
    · rw [hstep, hflag,
        ih false hz2 (fun hmem => hnl (List.mem_cons_of_mem c hmem))
          (fun habs => absurd habs (by simp)),
        List.cons_append]

theorem update_package_content_true {c p c2 : String}
    (h : update_package_content c p = (true, c2)) :
    re_sub_pkg c p = c2 ∧ c2 ≠ c := by
  rw [update_package_content] at h
  by_cases hcc : re_sub_pkg c p ≠ c
  · rw [if_pos hcc] at h
    injection h with _ h2
    exact ⟨h2, by rw [← h2]; exact hcc⟩
  · rw [if_neg hcc] at h
    injection h with h1 _
    exact absurd h1 (by simp)

theorem update_package_content_of_eq {c p : String}
    (h : re_sub_pkg c p = c) : update_package_content c p = (false, c) := by
  rw [update_package_content]
  rw [if_neg (fun hh => hh h)]

/-- Core of the second-run analysis: after the first substitution produced
the text w ++ replacement ++ rem, a second substitution scan leaves that text
unchanged, provided the attempt at the replacement position either re-matches
consuming exactly the replacement, or fails while the residual rem is itself
left unchanged by a scan that does not start at a line start. -/
theorem second_run {p : String} {cdata w rem : List Char}
    (hfm : findMatch cdata true = some (w, rem))
    (hcase : matchPkgAt (replacementOf p ++ rem) = some rem ∨
      (matchPkgAt (replacementOf p ++ rem) = none ∧ '\n' ∉ replacementOf p ∧
        subAux (replacementOf p) rem false = rem)) :
    subAux (replacementOf p) (w ++ replacementOf p ++ rem) true =
      w ++ replacementOf p ++ rem := by
  obtain ⟨v, hsv, hmv, hsub, hcand, hflag⟩ := findMatch_some hfm
  have hvp : v.head? = some 'p' := matchPkgAt_head hmv
  have hvsemi : ';' ∈ v := matchPkgAt_semi hmv
  have hRp : (replacementOf p ++ rem).head? = some 'p' := replacementOf_head p rem
  have hcand2 : ∀ w1 w2, w = w1 ++ w2 → w2 ≠ [] →
      ((w1 = [] ∧ true = true) ∨ w1.getLast? = some '\n') →
      matchPkgAt (w2 ++ (replacementOf p ++ rem)) = none := by
    intro w1 w2 hsplit hne hpos
    have hfail := hcand w1 w2 hsplit hne hpos
    have hwne : w ≠ [] := by
      intro h0
      rw [h0] at hsplit
      exact hne (List.append_eq_nil.mp hsplit.symm).2
    have hwlast : w.getLast? = some '\n' := lastFlag_true hflag hwne
    have hu2 : w2.getLast? = some '\n' := by
      rw [hsplit, List.getLast?_append_of_ne_nil _ hne] at hwlast
      exact hwlast
    exact matchPkgAt_stable hu2 hvp hRp hvsemi hfail
  rw [List.append_assoc]
  rw [subAux_scan (replacementOf p ++ rem) (replacementOf p) hcand2, hflag]
  rcases hcase with hsome | ⟨hnone, hnl, htail⟩
  · obtain ⟨t, ht⟩ : ∃ t, replacementOf p ++ rem = 'p' :: t := by
      cases hh : replacementOf p ++ rem with
      | nil =>
        have h0 := replacementOf_head p rem
        rw [hh] at h0
        exact absurd h0 (by simp)
      | cons a t =>
        have h0 := replacementOf_head p rem
        rw [hh] at h0
        injection h0 with h1
        exact ⟨t, by rw [h1]⟩
    have hsome2 : matchPkgAt ('p' :: t) = some rem := by
      rw [← ht]
      exact hsome
    rw [ht, subAux_cons_true_some _ hsome2, ← ht]
  · rw [subAux_no_newline rem (replacementOf p) (replacementOf p) true
      (replacementOf_ne_nil p) hnl (fun _ => hnone), htail]

theorem update_true_decomp {c p c2 : String}
    (h : update_package_content c p = (true, c2)) :
    ∃ w rem, findMatch c.data true = some (w, rem) ∧
      c2.data = w ++ replacementOf p ++ rem := by
  obtain ⟨hre, hne⟩ := update_package_content_true h
  cases hfm : findMatch c.data true with
  | none =>
    exfalso
    apply hne
    rw [← hre, re_sub_pkg, subAux_of_findMatch_none _ hfm]
  | some pr =>
    obtain ⟨w, rem⟩ := pr
    obtain ⟨v, hsv, hmv, hsub, hcand, hflag⟩ := findMatch_some hfm
    refine ⟨w, rem, rfl, ?_⟩
    rw [← hre, re_sub_pkg]
    exact hsub (replacementOf p)

theorem second_run_str {c p c2 : String}
    (hfirst : update_package_content c p = (true, c2))
    (hcase : ∀ w rem, findMatch c.data true = some (w, rem) →
      (matchPkgAt (replacementOf p ++ rem) = some rem ∨
        (matchPkgAt (replacementOf p ++ rem) = none ∧ '\n' ∉ replacementOf p ∧
          subAux (replacementOf p) rem false = rem))) :
    update_package_content c2 p = (false, c2) := by
  obtain ⟨w, rem, hfm, hdata⟩ := update_true_decomp hfirst
  apply update_package_content_of_eq
  rw [re_sub_pkg, hdata, second_run hfm (hcase w rem hfm), ← hdata]

theorem second_run_core (pkg X : String) (heq : pkg = "org.lareferencia.core." ++ X)
    (hne : X.data ≠ []) (hs : ';' ∉ X.data) {c c2 : String}
    (hfirst : update_package_content c pkg = (true, c2)) :
    update_package_content c2 pkg = (false, c2) := by
  subst heq
  refine second_run_str hfirst ?_
  intro w rem hfm
  exact Or.inl (matchPkgAt_repl_core X rem hne hs)

theorem process_files_skip_head {fs : FS} {dir f new_package c : String}
    {l2 : List String}
    (hjava : strEndsWith f ".java" = true)
    (hread : fs.read (joinPath dir f) = .ok c)
    (hnm : findMatch c.data true = none) :
    process_files fs dir (f :: l2) new_package = process_files fs dir l2 new_package := by
  have hid : re_sub_pkg c new_package = c := by
    unfold re_sub_pkg
    rw [subAux_of_findMatch_none _ hnm]
  have hupd : update_package_declaration fs (joinPath dir f) new_package = .ok (false, fs) := by
    unfold update_package_declaration
    rw [hread]
    dsimp only
    simp [hid]
  rw [process_files, if_pos hjava, hupd]
  dsimp only
  cases h2 : process_files fs dir l2 new_package with
  | error e => rfl
  | ok p =>
    obtain ⟨n2, fs2⟩ := p
    simp

/-- Claim C1: on a file whose entire content is the package declaration of
org.lareferencia.backend.domain.Foo followed by a blank line and a class
body, update_package_declaration with new package org.lareferencia.core.domain
rewrites the content to the expected text and returns true. -/
theorem claim_C1 :
    update_package_content
        "package org.lareferencia.backend.domain.Foo;\n\npublic class Foo \x7b\x7d\n"
        "org.lareferencia.core.domain" =
      (true, "package org.lareferencia.core.domain;\n\npublic class Foo \x7b\x7d\n") ∧
    update_package_declaration
        ⟨[("Foo.java", FsNode.file "package org.lareferencia.backend.domain.Foo;\n\npublic class Foo \x7b\x7d\n")]⟩
        "Foo.java" "org.lareferencia.core.domain" =
      .ok (true,
        FS.write ⟨[("Foo.java", FsNode.file "package org.lareferencia.backend.domain.Foo;\n\npublic class Foo \x7b\x7d\n")]⟩
          "Foo.java" "package org.lareferencia.core.domain;\n\npublic class Foo \x7b\x7d\n") := by
  constructor
  · decide
  · decide

/-- Claim C2: the substitution replaces at most the first match of the
pattern: either the content is returned unchanged, or it splits as a scanned
prefix, a matched part, and a remainder, of which only the matched part is
replaced by the replacement text; in particular a content beginning with the
declaration of org.lareferencia.core.foo.bar has exactly that declaration
replaced and the rest kept byte for byte. -/
theorem claim_C2 (content new_package : String) :
    ((re_sub_pkg content new_package = content) ∨
      ∃ w v rem, content.data = w ++ v ∧ matchPkgAt v = some rem ∧
        (re_sub_pkg content new_package).data = w ++ replacementOf new_package ++ rem) ∧
    ∀ rest : String,
      re_sub_pkg ("package org.lareferencia.core.foo.bar;" ++ rest) new_package =
        "package " ++ new_package ++ ";" ++ rest := by
  constructor
  · cases hfm : findMatch content.data true with
    | none =>
      left
      unfold re_sub_pkg
      rw [subAux_of_findMatch_none _ hfm]
    | some p =>
      obtain ⟨w, rem⟩ := p
      obtain ⟨v, hsv, hmv, hsub, _, _⟩ := findMatch_some hfm
      right
      exact ⟨w, v, rem, hsv, hmv, hsub (replacementOf new_package)⟩
  · intro rest
    rfl

/-- Claim C3: a file content with no match of the pattern is left unchanged,
update_package_declaration returns false without touching the filesystem, and
process_files produces the same count and state as if the file were absent
from the directory listing, so the file is not counted. -/
theorem claim_C3 (fs : FS) (path new_package c : String)
    (hread : fs.read path = .ok c)
    (hnm : findMatch c.data true = none) :
    re_sub_pkg c new_package = c ∧
    update_package_declaration fs path new_package = .ok (false, fs) ∧
    (∀ dir f l2, path = joinPath dir f → strEndsWith f ".java" = true →
      process_files fs dir (f :: l2) new_package = process_files fs dir l2 new_package) := by
  have hid : re_sub_pkg c new_package = c := by
    unfold re_sub_pkg
    rw [subAux_of_findMatch_none _ hnm]
  refine ⟨hid, ?_, ?_⟩
  · unfold update_package_declaration
    rw [hread]
    dsimp only
    simp [hid]
  · intro dir f l2 hpath hjava
    exact process_files_skip_head hjava (hpath ▸ hread) hnm

theorem claim_C3_witness :
    (FS.read ⟨[("/d/A.java", FsNode.file "public class A \x7b\x7d\n")]⟩ "/d/A.java" =
       .ok "public class A \x7b\x7d\n") ∧
    findMatch (String.data "public class A \x7b\x7d\n") true = none ∧
    update_package_declaration ⟨[("/d/A.java", FsNode.file "public class A \x7b\x7d\n")]⟩
        "/d/A.java" "org.lareferencia.core.domain" =
      .ok (false, (⟨[("/d/A.java", FsNode.file "public class A \x7b\x7d\n")]⟩ : FS)) :=
  ⟨by decide, by decide,
    (claim_C3 ⟨[("/d/A.java", FsNode.file "public class A \x7b\x7d\n")]⟩ "/d/A.java"
      "org.lareferencia.core.domain" "public class A \x7b\x7d\n" (by decide) (by decide)).2.1⟩

/-- Claim C4: when the joined directory path does not exist, process_directory
returns 0 with the filesystem untouched and raises nothing, and the main loop
treats the entry as contributing 0 and continues normally. -/
theorem claim_C4 (fs : FS) (base rel new_package : String)
    (h : fs.pathExists (joinPath base rel) = false) :
    process_directory fs base rel new_package = .ok (0, fs) ∧
    ∀ total rest, mainLoop fs base total ((rel, new_package) :: rest) =
      mainLoop fs base total rest := by
  refine ⟨process_directory_absent new_package h, ?_⟩
  intro total rest
  rw [mainLoop, process_directory_absent new_package h]
  dsimp only
  rw [Nat.add_zero]

theorem claim_C4_witness :
    FS.pathExists ⟨[]⟩ (joinPath "/base" "missing") = false ∧
    process_directory ⟨[]⟩ "/base" "missing" "org.lareferencia.core.domain" =
      .ok (0, (⟨[]⟩ : FS)) :=
  ⟨by decide,
    (claim_C4 ⟨[]⟩ "/base" "missing" "org.lareferencia.core.domain" (by decide)).1⟩

/-- Claim C5 as stated is false at this input: with target com.example.x, a
content holding two matching package lines is rewritten a first time (true),
and the second application rewrites the second line and returns true again
instead of false. -/
theorem claim_C5_counterexample :
    update_package_content
        "package org.lareferencia.core.a;\npackage org.lareferencia.core.b;\n"
        "com.example.x" =
      (true, "package com.example.x;\npackage org.lareferencia.core.b;\n") ∧
    update_package_content
        "package com.example.x;\npackage org.lareferencia.core.b;\n"
        "com.example.x" =
      (true, "package com.example.x;\npackage com.example.x;\n") := by
  constructor
  · decide
  · decide

/-- Claim C5 amended: a second application of the substitution with the same
target returns false and changes nothing, provided the target contains no
semicolon and no newline and the residual content after the first replaced
declaration is itself left unchanged by the continuing scan (in particular it
holds no further matching declaration). -/
theorem claim_C5 (c p c2 : String)
    (hp1 : ';' ∉ p.data) (hp2 : '\n' ∉ p.data)
    (hfirst : update_package_content c p = (true, c2))
    (hres : ∀ w rem, findMatch c.data true = some (w, rem) →
      subAux (replacementOf p) rem false = rem) :
    update_package_content c2 p = (false, c2) := by
  refine second_run_str hfirst ?_
  intro w rem hfm
  rcases matchPkgAt_repl_cases p rem hp1 with hnone | hsome
  · exact Or.inr ⟨hnone, replacementOf_not_newline hp2, hres w rem hfm⟩
  · exact Or.inl hsome

theorem claim_C5_witness :
    update_package_content "package com.example.x;\n" "com.example.x" =
      (false, "package com.example.x;\n") := by
  refine claim_C5 "package org.lareferencia.core.a;\n" "com.example.x"
    "package com.example.x;\n" (by decide) (by decide) (by decide) ?_
  intro w rem h
  rw [(by decide : findMatch (String.data "package org.lareferencia.core.a;\n") true =
    some ([], ['\n']))] at h
  injection h with h1
  injection h1 with hw hrem
  subst hw
  subst hrem
  decide

/-- Claim C9: for every target of the embedded PACKAGE_MAPPINGS, a second
application of the substitution with the same target returns false and writes
nothing, with no assumption on the file content: the rewritten declaration
still matches the pattern, absorbs the single replacement slot, and the
substitution reproduces the very text already in place. -/
theorem claim_C9 (rel pkg : String) (hmem : (rel, pkg) ∈ PACKAGE_MAPPINGS)
    (c c2 : String)
    (hfirst : update_package_content c pkg = (true, c2)) :
    update_package_content c2 pkg = (false, c2) := by
  rw [PACKAGE_MAPPINGS] at hmem
  simp only [List.mem_cons, List.not_mem_nil, or_false, Prod.mk.injEq] at hmem
  rcases hmem with ⟨h1, h2⟩ | ⟨h1, h2⟩ | ⟨h1, h2⟩ | ⟨h1, h2⟩ | ⟨h1, h2⟩ | ⟨h1, h2⟩ |
    ⟨h1, h2⟩ | ⟨h1, h2⟩ | ⟨h1, h2⟩ | ⟨h1, h2⟩ | ⟨h1, h2⟩ | ⟨h1, h2⟩ | ⟨h1, h2⟩ | ⟨h1, h2⟩
  · exact second_run_core pkg "domain" (by rw [h2]; decide) (by decide) (by decide) hfirst
  · exact second_run_core pkg "repository.jpa" (by rw [h2]; decide) (by decide) (by decide) hfirst
  · exact second_run_core pkg "repository.parquet" (by rw [h2]; decide) (by decide) (by decide) hfirst
  · exact second_run_core pkg "service.harvesting" (by rw [h2]; decide) (by decide) (by decide) hfirst
  · exact second_run_core pkg "service.validation" (by rw [h2]; decide) (by decide) (by decide) hfirst
  · exact second_run_core pkg "service.indexing" (by rw [h2]; decide) (by decide) (by decide) hfirst
  · exact second_run_core pkg "service.management" (by rw [h2]; decide) (by decide) (by decide) hfirst
  · exact second_run_core pkg "worker.harvesting" (by rw [h2]; decide) (by decide) (by decide) hfirst
  · exact second_run_core pkg "worker.validation" (by rw [h2]; decide) (by decide) (by decide) hfirst
  · exact second_run_core pkg "worker.validation.validator" (by rw [h2]; decide) (by decide) (by decide) hfirst
  · exact second_run_core pkg "worker.validation.transformer" (by rw [h2]; decide) (by decide) (by decide) hfirst
  · exact second_run_core pkg "worker.indexing" (by rw [h2]; decide) (by decide) (by decide) hfirst
  · exact second_run_core pkg "worker.management" (by rw [h2]; decide) (by decide) (by decide) hfirst
  · exact second_run_core pkg "task" (by rw [h2]; decide) (by decide) (by decide) hfirst

theorem claim_C9_witness :
    update_package_content "package org.lareferencia.core.domain;\n"
        "org.lareferencia.core.domain" =
      (false, "package org.lareferencia.core.domain;\n") :=
  claim_C9 "domain" "org.lareferencia.core.domain" (by decide)
    "package org.lareferencia.backend.foo;\n"
    "package org.lareferencia.core.domain;\n" (by decide)

/-- Claim C6: a successful process_directory run only ever writes at paths of
the form directory-slash-name for a name in the immediate listing that ends
in .java: every other path of the filesystem holds the same node afterwards,
so files in subdirectories and files without the .java suffix are never
modified. -/
theorem claim_C6 (fs : FS) (base rel new_package : String) (n : Nat) (fs2 : FS)
    (h : process_directory fs base rel new_package = .ok (n, fs2)) :
    ∀ q : String,
      (∀ f, f ∈ dirEntries fs (joinPath base rel) → strEndsWith f ".java" = true →
        q ≠ joinPath (joinPath base rel) f) →
      fs2.find q = fs.find q := by
  intro q hq
  simp only [process_directory] at h
  by_cases hex : fs.pathExists (joinPath base rel) = false
  · rw [if_pos hex] at h
    injection h with h1
    injection h1 with _ h3
    rw [← h3]
  · rw [if_neg hex] at h
    cases hfind : fs.find (joinPath base rel) with
    | none => exact absurd (by rw [FS.pathExists, hfind]; rfl) hex
    | some node =>
      cases node with
      | file c =>
        rw [FS.listdir, hfind] at h
        exact absurd h (by simp)
      | dir es =>
        rw [FS.listdir, hfind] at h
        dsimp only at h
        have hde : dirEntries fs (joinPath base rel) = es := by
          rw [dirEntries, hfind]
        exact process_files_frame h q
          (fun f hf hfj => hq f (by rw [hde]; exact hf) hfj)

theorem claim_C6_witness :
    process_directory
        ⟨[("/base/rel", FsNode.dir ["A.java", "B.txt"]),
          ("/base/rel/A.java", FsNode.file "package org.lareferencia.core.a;\n"),
          ("/base/rel/B.txt", FsNode.file "package org.lareferencia.core.a;\n")]⟩
        "/base" "rel" "org.x" =
      .ok (1,
        FS.write
          ⟨[("/base/rel", FsNode.dir ["A.java", "B.txt"]),
            ("/base/rel/A.java", FsNode.file "package org.lareferencia.core.a;\n"),
            ("/base/rel/B.txt", FsNode.file "package org.lareferencia.core.a;\n")]⟩
          "/base/rel/A.java" "package org.x;\n") ∧
    FS.find
        (FS.write
          ⟨[("/base/rel", FsNode.dir ["A.java", "B.txt"]),
            ("/base/rel/A.java", FsNode.file "package org.lareferencia.core.a;\n"),
            ("/base/rel/B.txt", FsNode.file "package org.lareferencia.core.a;\n")]⟩
          "/base/rel/A.java" "package org.x;\n") "/base/rel/B.txt" =
      FS.find
        ⟨[("/base/rel", FsNode.dir ["A.java", "B.txt"]),
          ("/base/rel/A.java", FsNode.file "package org.lareferencia.core.a;\n"),
          ("/base/rel/B.txt", FsNode.file "package org.lareferencia.core.a;\n")]⟩
        "/base/rel/B.txt" :=
  ⟨by decide,
    claim_C6 _ "/base" "rel" "org.x" 1 _ (by decide) "/base/rel/B.txt" (by decide)⟩

/-- Claim C7: main iterates the mapping entries in insertion order and its
reported grand total is the sum of the counts returned by the successive
process_directory calls. -/
theorem claim_C7 (fs : FS) (t : Nat) (fs2 : FS)
    (h : main fs = .ok (t, fs2)) :
    ∃ cs, entryCounts fs base_path PACKAGE_MAPPINGS = some cs ∧ t = cs.sum := by
  obtain ⟨cs, hcs, hsum⟩ := mainLoop_sum h
  exact ⟨cs, hcs, by simpa using hsum⟩

theorem claim_C7_witness :
    main ⟨[]⟩ = .ok (0, (⟨[]⟩ : FS)) ∧
    ∃ cs, entryCounts ⟨[]⟩ base_path PACKAGE_MAPPINGS = some cs ∧ 0 = cs.sum :=
  ⟨by decide, claim_C7 ⟨[]⟩ 0 ⟨[]⟩ (by decide)⟩

/-- Claim C8: the whitespace and body pieces of the pattern match newline
characters, so a match can span lines: on a content whose first line has no
semicolon, the substitution swallows everything up to the first semicolon on
a later line, removing the intervening text. -/
theorem claim_C8 :
    update_package_content
        "package org.lareferencia.core.x\nimport a.b;\nclass X \x7b\x7d\n"
        "org.lareferencia.core.y" =
      (true, "package org.lareferencia.core.y;\nclass X \x7b\x7d\n") := by
  decide

/-- Claim C10: the guard of process_directory only checks existence; when the
joined path exists but is a regular file, the directory listing raises and
the error propagates out of process_directory and aborts the main loop. -/
theorem claim_C10 (fs : FS) (base rel new_package c : String)
    (h : fs.find (joinPath base rel) = some (FsNode.file c)) :
    process_directory fs base rel new_package = .error "NotADirectoryError" ∧
    ∀ total rest, mainLoop fs base total ((rel, new_package) :: rest) =
      .error "NotADirectoryError" := by
  have hex : fs.pathExists (joinPath base rel) = true := by
    rw [FS.pathExists, h]
    rfl
  have hld : fs.listdir (joinPath base rel) = .error "NotADirectoryError" := by
    rw [FS.listdir, h]
  have hpd : process_directory fs base rel new_package = .error "NotADirectoryError" := by
    simp [process_directory, hex, hld]
  refine ⟨hpd, ?_⟩
  intro total rest
  simp [mainLoop, hpd]

theorem claim_C10_witness :
    FS.find ⟨[("/b/rel", FsNode.file "x")]⟩ (joinPath "/b" "rel") =
      some (FsNode.file "x") ∧
    process_directory ⟨[("/b/rel", FsNode.file "x")]⟩ "/b" "rel" "p" =
      .error "NotADirectoryError" :=
  ⟨by decide, (claim_C10 ⟨[("/b/rel", FsNode.file "x")]⟩ "/b" "rel" "p" "x" (by decide)).1⟩

end UpdatePackages

namespace UpdatePackages

end UpdatePackages
